import Mathlib

/-!
Verification of the reactorcide runner core (runnerlib) against its
natural-language specification.

Strings are modelled as `List Char` (`Str`).  Each section embeds one
Python module of `src/runnerlib/src/`:

* `secrets.py`   — value-based secret masking (`SecretMasker`);
* `eval.py`      — glob matching and event evaluation;
* `config.py`    — `get_secrets_to_mask`;
* `secrets_local.py` — the nested-map secret store (`secret_delete`);
* `plugins.py`   — `PluginManager.register_plugin` / `execute_phase`;
* `source_prep.py` — `_prepare_git_source` checkout behaviour;
* `workflow.py`  — `WorkflowContext.flush_triggers`.

Recursive text functions are written with an explicit fuel argument so
that they are structurally recursive and evaluate inside the kernel;
the fuel is always at least the length of the consumed input, and every
recursive call consumes at least one element, so the fuel never runs
out on the calls the wrappers make.
-/

/-- Strings of the Python source, modelled as lists of characters. -/
abbrev Str := List Char

/-- Boolean prefix test on `Str` (Python `str.startswith`, and the
anchored regex match that `re.sub` performs at each position). -/
def isPrefixB : Str → Str → Bool
  | [], _ => true
  | _ :: _, [] => false
  | a :: v, b :: m => a == b && isPrefixB v m

/-- `isPrefixB v m` holds exactly when `m` extends `v`. -/
theorem isPrefixB_iff (v : Str) : ∀ m : Str, isPrefixB v m = true ↔ ∃ t, m = v ++ t := by
  induction v with
  | nil =>
    intro m
    simp [isPrefixB]
  | cons a v ih =>
    intro m
    cases m with
    | nil =>
      simp [isPrefixB]
    | cons b m' =>
      simp only [isPrefixB, Bool.and_eq_true, beq_iff_eq, ih m']
      constructor
      · rintro ⟨rfl, t, rfl⟩
        exact ⟨t, rfl⟩
      · rintro ⟨t, h⟩
        cases h
        exact ⟨rfl, t, rfl⟩

/-- `v` occurs (as a contiguous substring) in `m`. -/
def OccursIn (v m : Str) : Prop := ∃ s t, m = s ++ v ++ t

theorem occursIn_nil (v : Str) (hv : v ≠ []) : ¬ OccursIn v [] := by
  rintro ⟨s, t, h⟩
  rcases List.append_eq_nil.mp h.symm with ⟨h1, h2⟩
  rcases List.append_eq_nil.mp h1 with ⟨-, h3⟩
  exact hv h3

theorem occursIn_cons (v m : Str) (c : Char) (h : OccursIn v m) : OccursIn v (c :: m) := by
  rcases h with ⟨s, t, rfl⟩
  exact ⟨c :: s, t, rfl⟩

theorem occursIn_append_right (v p m : Str) (h : OccursIn v m) : OccursIn v (p ++ m) := by
  rcases h with ⟨s, t, rfl⟩
  exact ⟨p ++ s, t, by simp⟩

theorem occursIn_of_prefixB (v m : Str) (h : isPrefixB v m = true) : OccursIn v m := by
  rcases (isPrefixB_iff v m).mp h with ⟨t, rfl⟩
  exact ⟨[], t, rfl⟩

/-- An occurrence in `c :: m` is an occurrence at the head or one in `m`. -/
theorem occursIn_cons_elim (v m : Str) (c : Char) (h : OccursIn v (c :: m)) :
    isPrefixB v (c :: m) = true ∨ OccursIn v m := by
  rcases h with ⟨s, t, hs⟩
  cases s with
  | nil =>
    left
    exact (isPrefixB_iff v (c :: m)).mpr ⟨t, by simpa using hs⟩
  | cons d s' =>
    right
    rcases List.cons_eq_cons.mp hs with ⟨-, h2⟩
    exact ⟨s', t, h2⟩

/-!
Embedding of `src/runnerlib/src/secrets.py` (`SecretMasker`).

The masker's state is its set of registered secret strings.  Python
iterates over that set in an unspecified order, so theorems quantify
over an arbitrary list enumeration of the set.  `re.sub` with an
escaped (literal) pattern replaces the leftmost non-overlapping
occurrences, which is `replaceAllFuel` below.  The default redaction
text is `"[REDACTED]"`.
-/

/-- Redaction text of `SecretMasker` (`redaction_text`, default value). -/
def redactionText : Str := "[REDACTED]".toList

/-- Leftmost non-overlapping literal replacement (`re.sub(re.escape p, r, m)`),
with fuel.  A call with `m.length ≤ fuel` never reaches the fuel-exhausted
branch, because every step consumes at least one character of `m`; the
pattern `p` is never empty where `mask_string` uses this (secrets of length
at least 3). -/
def replaceAllFuel (p r : Str) : Nat → Str → Str
  | 0, m => m
  | _ + 1, [] => []
  | fuel + 1, c :: m =>
    if p ≠ [] ∧ isPrefixB p (c :: m) = true then
      r ++ replaceAllFuel p r fuel (List.drop (p.length - 1) m)
    else
      c :: replaceAllFuel p r fuel m

/-- Replace every occurrence of `p` in `m` by `r`. -/
def replaceAll (p r m : Str) : Str := replaceAllFuel p r m.length m

/-- Minimum masked secret length (`_min_secret_length = 3`). -/
def minSecretLength : Nat := 3

/-- One step of `mask_string`'s loop over the registered secrets:
secrets shorter than `_min_secret_length` are skipped. -/
def maskOne (m s : Str) : Str :=
  if minSecretLength ≤ s.length then replaceAll s redactionText m else m

/-- Embedding of `SecretMasker.mask_string`, given an enumeration of the
set `self._secrets` in some iteration order.  (The `if not text` early
return coincides with the loop on the empty text.) -/
def mask_string (secrets : List Str) (text : Str) : Str :=
  secrets.foldl maskOne text

/-- Embedding of `SecretMasker.register_secret`: empty values are ignored,
non-empty values are added to the set (modelled as a duplicate-free list). -/
def register_secret (secrets : List Str) (value : Str) : List Str :=
  if value = [] then secrets
  else if value ∈ secrets then secrets
  else secrets ++ [value]

theorem mem_register_secret_self (secrets : List Str) (value : Str) (h : value ≠ []) :
    value ∈ register_secret secrets value := by
  unfold register_secret
  rw [if_neg h]
  by_cases hm : value ∈ secrets
  · rw [if_pos hm]; exact hm
  · rw [if_neg hm]; simp

/-- Prepending the replacement text cannot create an occurrence of a
pattern whose characters do not appear in the replacement text. -/
theorem occursIn_append_replacement (v r x : Str) (hv : v ≠ [])
    (hdisj : ∀ c ∈ v, c ∉ r) (hx : ¬ OccursIn v x) : ¬ OccursIn v (r ++ x) := by
  rintro ⟨s, t, hst⟩
  rw [List.append_assoc] at hst
  rcases List.append_eq_append_iff.mp hst.symm with ⟨a', ha1, ha2⟩ | ⟨c', hc1, hc2⟩
  · cases a' with
    | nil =>
      simp only [List.nil_append] at ha2
      exact hx ⟨[], t, by simp [ha2]⟩
    | cons ch c'' =>
      cases v with
      | nil => exact hv rfl
      | cons vh vt =>
        have hch : vh = ch := by
          have h2 := ha2
          simp only [List.cons_append] at h2
          exact (List.cons_eq_cons.mp h2).1
        have hmem : ch ∈ r := by
          rw [ha1]
          exact List.mem_append_right s (List.mem_cons_self ch c'')
        exact hdisj vh (List.mem_cons_self vh vt) (hch ▸ hmem)
  · exact hx ⟨c', t, by rw [hc2, List.append_assoc]⟩

/-- If `w`'s characters avoid the replacement text, a prefix of the
replacement result is a prefix of the original string. -/
theorem prefix_of_replaceAllFuel (p r : Str) (hr : r ≠ []) :
    ∀ fuel m w, (∀ c ∈ w, c ∉ r) →
      isPrefixB w (replaceAllFuel p r fuel m) = true → isPrefixB w m = true := by
  intro fuel
  induction fuel with
  | zero => intro m w _ h; exact h
  | succ fuel ih =>
    intro m w hdisj h
    cases m with
    | nil =>
      simpa [replaceAllFuel] using h
    | cons c m0 =>
      by_cases hcond : p ≠ [] ∧ isPrefixB p (c :: m0) = true
      · rw [replaceAllFuel, if_pos hcond] at h
        cases w with
        | nil => rfl
        | cons wh w' =>
          exfalso
          cases r with
          | nil => exact hr rfl
          | cons rh r' =>
            have : wh = rh := by
              simp only [List.cons_append, isPrefixB, Bool.and_eq_true, beq_iff_eq] at h
              exact h.1
            exact hdisj wh (List.mem_cons_self wh w') (this ▸ List.mem_cons_self rh r')
      · rw [replaceAllFuel, if_neg hcond] at h
        cases w with
        | nil => rfl
        | cons wh w' =>
          simp only [isPrefixB, Bool.and_eq_true, beq_iff_eq] at h ⊢
          refine ⟨h.1, ?_⟩
          exact ih m0 w' (fun c hc => hdisj c (List.mem_cons_of_mem wh hc)) h.2

/-- A successful anchored match decomposes the text as pattern ++ rest,
where rest is what the replacement recursion continues on. -/
theorem prefixB_decomp (p : Str) (c : Char) (m0 : Str) (hp : p ≠ [])
    (h : isPrefixB p (c :: m0) = true) :
    c :: m0 = p ++ List.drop (p.length - 1) m0 := by
  rcases (isPrefixB_iff p (c :: m0)).mp h with ⟨t, ht⟩
  cases p with
  | nil => exact absurd rfl hp
  | cons ph pt =>
    have ht' : c :: m0 = ph :: (pt ++ t) := by simpa using ht
    obtain ⟨-, hm0⟩ := List.cons_eq_cons.mp ht'
    have hdrop : List.drop ((ph :: pt).length - 1) m0 = t := by
      rw [hm0]
      simp [List.drop_left]
    rw [hdrop]
    exact ht

/-- Replacing a pattern by text sharing no character with it removes
every occurrence of the pattern. -/
theorem replaceAllFuel_self (v r : Str) (hv : v ≠ []) (hr : r ≠ [])
    (hdisj : ∀ c ∈ v, c ∉ r) :
    ∀ fuel m, m.length ≤ fuel → ¬ OccursIn v (replaceAllFuel v r fuel m) := by
  intro fuel
  induction fuel with
  | zero =>
    intro m hm
    have : m = [] := List.length_eq_zero.mp (Nat.le_zero.mp hm)
    subst this
    exact occursIn_nil v hv
  | succ fuel ih =>
    intro m hm
    cases m with
    | nil =>
      rw [replaceAllFuel]
      exact occursIn_nil v hv
    | cons c m0 =>
      have hm0 : m0.length ≤ fuel := by
        simp only [List.length_cons] at hm
        omega
      by_cases hcond : v ≠ [] ∧ isPrefixB v (c :: m0) = true
      · rw [replaceAllFuel, if_pos hcond]
        have hlen : (List.drop (v.length - 1) m0).length ≤ fuel := by
          rw [List.length_drop]
          omega
        exact occursIn_append_replacement v r _ hv hdisj (ih _ hlen)
      · rw [replaceAllFuel, if_neg hcond]
        have hnp : ¬ isPrefixB v (c :: m0) = true := fun hpre => hcond ⟨hv, hpre⟩
        intro hocc
        rcases occursIn_cons_elim v _ c hocc with hpre | htail
        · have hres : isPrefixB v (replaceAllFuel v r (fuel + 1) (c :: m0)) = true := by
            rw [replaceAllFuel, if_neg hcond]
            exact hpre
          exact hnp (prefix_of_replaceAllFuel v r hr (fuel + 1) (c :: m0) v hdisj hres)
        · exact ih m0 hm0 htail

/-- Replacing any (other) pattern cannot create an occurrence of `v` when
`v`'s characters avoid the replacement text. -/
theorem replaceAllFuel_preserves (p v r : Str) (hp : p ≠ []) (hv : v ≠ []) (hr : r ≠ [])
    (hdisj : ∀ c ∈ v, c ∉ r) :
    ∀ fuel m, m.length ≤ fuel → ¬ OccursIn v m → ¬ OccursIn v (replaceAllFuel p r fuel m) := by
  intro fuel
  induction fuel with
  | zero =>
    intro m _ hnocc
    exact hnocc
  | succ fuel ih =>
    intro m hm hnocc
    cases m with
    | nil =>
      rw [replaceAllFuel]
      exact occursIn_nil v hv
    | cons c m0 =>
      have hm0 : m0.length ≤ fuel := by
        simp only [List.length_cons] at hm
        omega
      by_cases hcond : p ≠ [] ∧ isPrefixB p (c :: m0) = true
      · rw [replaceAllFuel, if_pos hcond]
        have hdecomp := prefixB_decomp p c m0 hp hcond.2
        have hrest : ¬ OccursIn v (List.drop (p.length - 1) m0) := by
          intro h
          exact hnocc (hdecomp ▸ occursIn_append_right v p _ h)
        have hlen : (List.drop (p.length - 1) m0).length ≤ fuel := by
          rw [List.length_drop]
          omega
        exact occursIn_append_replacement v r _ hv hdisj (ih _ hlen hrest)
      · rw [replaceAllFuel, if_neg hcond]
        intro hocc
        rcases occursIn_cons_elim v _ c hocc with hpre | htail
        · have hres : isPrefixB v (replaceAllFuel p r (fuel + 1) (c :: m0)) = true := by
            rw [replaceAllFuel, if_neg hcond]
            exact hpre
          have := prefix_of_replaceAllFuel p r hr (fuel + 1) (c :: m0) v hdisj hres
          exact hnocc (occursIn_of_prefixB v _ this)
        · exact ih m0 hm0 (fun h => hnocc (occursIn_cons v m0 c h)) htail

theorem redactionText_ne_nil : redactionText ≠ [] := by decide

/-- Once `v` is gone, masking further secrets never reintroduces it
(its characters avoid the redaction text). -/
theorem foldl_maskOne_preserves (v : Str) (hv : v ≠ [])
    (hdisj : ∀ c ∈ v, c ∉ redactionText) :
    ∀ (l : List Str) (m : Str), ¬ OccursIn v m → ¬ OccursIn v (List.foldl maskOne m l) := by
  intro l
  induction l with
  | nil =>
    intro m h
    exact h
  | cons s l ih =>
    intro m h
    rw [List.foldl_cons]
    apply ih
    unfold maskOne
    by_cases hs : minSecretLength ≤ s.length
    · rw [if_pos hs]
      have hsne : s ≠ [] := by
        intro hnil
        rw [hnil] at hs
        simp [minSecretLength] at hs
      exact replaceAllFuel_preserves s v redactionText hsne hv redactionText_ne_nil hdisj
        m.length m (Nat.le_refl _) h
    · rw [if_neg hs]
      exact h

/-- C1 (amended): for every secret `v` of length at least 3 whose characters
do not appear in the redaction text `[REDACTED]`, every text `t` containing
`v`, and every set of previously registered secrets: after
`register_secret v`, `mask_string` (run over the resulting secret set in any
iteration order `enum`) leaves no occurrence of `v` in its output. -/
theorem mask_string_after_register_no_occurrence
    (prev enum : List Str) (v t : Str)
    (henum : ∀ s, s ∈ enum ↔ s ∈ register_secret prev v)
    (hlen : minSecretLength ≤ v.length)
    (hcont : OccursIn v t)
    (hdisj : ∀ c ∈ v, c ∉ redactionText) :
    ¬ OccursIn v (mask_string enum t) := by
  have hv : v ≠ [] := by
    intro hnil
    rw [hnil] at hlen
    simp [minSecretLength] at hlen
  have hmem : v ∈ enum := (henum v).mpr (mem_register_secret_self prev v hv)
  rcases List.append_of_mem hmem with ⟨l₁, l₂, rfl⟩
  unfold mask_string
  rw [List.foldl_append, List.foldl_cons]
  apply foldl_maskOne_preserves v hv hdisj
  have hmask : maskOne (List.foldl maskOne t l₁) v
      = replaceAll v redactionText (List.foldl maskOne t l₁) := by
    unfold maskOne
    rw [if_pos hlen]
  rw [hmask]
  exact replaceAllFuel_self v redactionText hv redactionText_ne_nil hdisj _ _ (Nat.le_refl _)

/-- C1 witness: registering `xyz` over an empty masker masks it out of `xyz`. -/
theorem mask_string_after_register_no_occurrence_witness :
    ¬ OccursIn "xyz".toList (mask_string ["xyz".toList] "xyz".toList) :=
  mask_string_after_register_no_occurrence [] ["xyz".toList] "xyz".toList "xyz".toList
    (fun s => by rw [show register_secret [] "xyz".toList = ["xyz".toList] by decide])
    (by decide) ⟨[], [], by simp⟩ (by decide)

/-- C1 counterexample: `RED` has length 3 and occurs in the text `RED`, yet
after registering it, `mask_string "RED" = "[REDACTED]"` still contains the
occurrence `RED` — the redaction text itself contains the secret. -/
theorem mask_string_redaction_counterexample :
    minSecretLength ≤ ("RED".toList).length ∧
    OccursIn "RED".toList "RED".toList ∧
    OccursIn "RED".toList (mask_string (register_secret [] "RED".toList) "RED".toList) :=
  ⟨by decide, ⟨[], [], by simp⟩, ⟨"[".toList, "ACTED]".toList, by decide⟩⟩

/-- A fold of `maskOne` over secrets that are all shorter than the minimum
secret length changes nothing. -/
theorem foldl_maskOne_all_short (l : List Str)
    (hshort : ∀ s ∈ l, s.length < minSecretLength) :
    ∀ t : Str, List.foldl maskOne t l = t := by
  induction l with
  | nil =>
    intro t
    rfl
  | cons s l ih =>
    intro t
    rw [List.foldl_cons]
    have hs : ¬ minSecretLength ≤ s.length :=
      Nat.not_le.mpr (hshort s (List.mem_cons_self s l))
    have : maskOne t s = t := by
      unfold maskOne
      rw [if_neg hs]
    rw [this]
    exact ih (fun x hx => hshort x (List.mem_cons_of_mem s hx)) t

/-- C9: when every registered secret is shorter than 3 characters,
`mask_string` is the identity, and registering a further value shorter
than 3 characters still leaves `mask_string` the identity. -/
theorem mask_string_short_secrets_identity
    (enum : List Str) (v t : Str)
    (hshort : ∀ s ∈ enum, s.length < minSecretLength)
    (hv : v.length < minSecretLength) :
    mask_string enum t = t ∧ mask_string (register_secret enum v) t = t := by
  constructor
  · exact foldl_maskOne_all_short enum hshort t
  · have hshort' : ∀ s ∈ register_secret enum v, s.length < minSecretLength := by
      intro s hs
      unfold register_secret at hs
      by_cases h0 : v = []
      · rw [if_pos h0] at hs
        exact hshort s hs
      · rw [if_neg h0] at hs
        by_cases h1 : v ∈ enum
        · rw [if_pos h1] at hs
          exact hshort s hs
        · rw [if_neg h1] at hs
          rcases List.mem_append.mp hs with h | h
          · exact hshort s h
          · rw [List.mem_singleton.mp h]
            exact hv
    exact foldl_maskOne_all_short _ hshort' t

/-- C9 witness: the two-character secret `ab` (and further registering `x`)
leaves the text `hello ab` unchanged. -/
theorem mask_string_short_secrets_identity_witness :
    mask_string ["ab".toList] "hello ab".toList = "hello ab".toList ∧
    mask_string (register_secret ["ab".toList] "x".toList) "hello ab".toList
      = "hello ab".toList :=
  mask_string_short_secrets_identity ["ab".toList] "x".toList "hello ab".toList
    (by decide) (by decide)

/-!
Embedding of `src/runnerlib/src/eval.py`: the segment-based glob matcher
(`branch_matches`, `_match_segments`, `_glob_match_path`, `paths_match`)
and `evaluate_event`.

Per-segment matching is Python's `fnmatch.fnmatch` restricted to the
`*` and `?` wildcards with every other character literal; `fnmatch`'s
bracket character classes are not modelled (no claim and no example of
the spec uses them).
-/

/-- Python `str.split(sep)` for a one-character separator
(`"".split(sep) == [""]`). -/
def splitOnChar (sep : Char) : Str → List Str
  | [] => [[]]
  | c :: rest =>
    match splitOnChar sep rest with
    | [] => [[]]
    | s :: ss => if c = sep then [] :: s :: ss else (c :: s) :: ss

/-- Segments of a pattern or branch name (`pattern.split("/")`). -/
def splitSlash (s : Str) : List Str := splitOnChar '/' s

/-- The `**` segment. -/
def dstar : Str := ['*', '*']

/-- Single-segment wildcard match (`fnmatch.fnmatch`), with fuel: each
step consumes a pattern character or a text character. -/
def segMatchFuel : Nat → Str → Str → Bool
  | 0, _, _ => false
  | _ + 1, [], s => s.isEmpty
  | fuel + 1, c :: ps, s =>
    if c = '*' then
      segMatchFuel fuel ps s ||
        (match s with
         | [] => false
         | _ :: s' => segMatchFuel fuel (c :: ps) s')
    else
      match s with
      | [] => false
      | c' :: s' =>
        if c = '?' then segMatchFuel fuel ps s'
        else (c == c') && segMatchFuel fuel ps s'

/-- Single-segment wildcard match with sufficient fuel. -/
def segMatch (p s : Str) : Bool := segMatchFuel (p.length + s.length + 1) p s

/-- Recursive segment matching with `**` support (`_match_segments`),
with fuel: each step consumes a pattern segment or a branch segment. -/
def matchSegmentsFuel : Nat → List Str → List Str → Bool
  | 0, _, _ => false
  | _ + 1, [], bs => bs.isEmpty
  | _ + 1, p :: ps, [] => (p :: ps).all (fun q => q == dstar)
  | fuel + 1, p :: ps, b :: bs =>
    if p == dstar then
      matchSegmentsFuel fuel ps (b :: bs) || matchSegmentsFuel fuel (p :: ps) bs
    else
      segMatch p b && matchSegmentsFuel fuel ps bs

/-- Embedding of `_match_segments` with sufficient fuel. -/
def _match_segments (ps bs : List Str) : Bool :=
  matchSegmentsFuel (ps.length + bs.length + 1) ps bs

/-- Embedding of `branch_matches`. -/
def branch_matches (pattern branch : Str) : Bool :=
  _match_segments (splitSlash pattern) (splitSlash branch)

/-- Embedding of `_glob_match_path` (same matcher, applied to file paths). -/
def _glob_match_path (pattern filePath : Str) : Bool :=
  _match_segments (splitSlash pattern) (splitSlash filePath)

/-- Path include/exclude configuration of a job definition (`PathsConfig`;
the source field names are `include` and `exclude`, which are keywords in
Lean). -/
structure PathsConfig where
  includeGlobs : List Str
  excludeGlobs : List Str
deriving DecidableEq

/-- Trigger configuration of a job definition (`TriggersConfig`). -/
structure TriggersConfig where
  events : List Str
  branches : List Str
deriving DecidableEq

/-- A job definition as `evaluate_event` consumes it (the fields that
do not influence matching are omitted). -/
structure JobDefinition where
  name : Str
  triggers : TriggersConfig
  paths : PathsConfig
deriving DecidableEq

/-- Embedding of `paths_match`. -/
def paths_match (pc : PathsConfig) (changedFiles : List Str) : Bool :=
  if pc.includeGlobs = [] ∧ pc.excludeGlobs = [] then true
  else if changedFiles = [] then decide (pc.includeGlobs = [] ∧ pc.excludeGlobs = [])
  else changedFiles.any fun f =>
    (decide (pc.includeGlobs = []) || pc.includeGlobs.any (fun pat => _glob_match_path pat f)) &&
    !(pc.excludeGlobs.any (fun pat => _glob_match_path pat f))

/-- Embedding of `evaluate_event`.  Note the Python guard
`if defn.triggers.branches and branch:` — the branch filter only applies
when both the filter list and the current branch are non-empty. -/
def evaluate_event (definitions : List JobDefinition) (eventType branch : Str)
    (changedFiles : Option (List Str)) : List JobDefinition :=
  definitions.filter fun defn =>
    decide (defn.triggers.events ≠ []) &&
    decide (eventType ∈ defn.triggers.events) &&
    (if defn.triggers.branches ≠ [] ∧ branch ≠ [] then
       defn.triggers.branches.any (fun pat => branch_matches pat branch)
     else true) &&
    (if defn.paths.includeGlobs ≠ [] ∨ defn.paths.excludeGlobs ≠ [] then
       match changedFiles with
       | none => true
       | some cf => paths_match defn.paths cf
     else true)

/-- Fuel irrelevance for segment matching: any two sufficient fuels agree. -/
theorem matchSegmentsFuel_fuel_eq :
    ∀ f g ps bs, ps.length + bs.length < f → ps.length + bs.length < g →
      matchSegmentsFuel f ps bs = matchSegmentsFuel g ps bs := by
  intro f
  induction f with
  | zero =>
    intro g ps bs hf _
    exact absurd hf (Nat.not_lt_zero _)
  | succ f ih =>
    intro g ps bs hf hg
    cases g with
    | zero => exact absurd hg (Nat.not_lt_zero _)
    | succ g =>
      cases ps with
      | nil => rfl
      | cons p ps' =>
        cases bs with
        | nil => rfl
        | cons b bs' =>
          simp only [List.length_cons] at hf hg
          rw [matchSegmentsFuel, matchSegmentsFuel]
          by_cases hd : (p == dstar) = true
          · rw [if_pos hd, if_pos hd]
            have h1 : matchSegmentsFuel f ps' (b :: bs') = matchSegmentsFuel g ps' (b :: bs') :=
              ih g ps' (b :: bs') (by simp only [List.length_cons]; omega)
                (by simp only [List.length_cons]; omega)
            have h2 : matchSegmentsFuel f (p :: ps') bs' = matchSegmentsFuel g (p :: ps') bs' :=
              ih g (p :: ps') bs' (by simp only [List.length_cons]; omega)
                (by simp only [List.length_cons]; omega)
            rw [h1, h2]
          · rw [if_neg hd, if_neg hd]
            have h3 : matchSegmentsFuel f ps' bs' = matchSegmentsFuel g ps' bs' :=
              ih g ps' bs' (by omega) (by omega)
            rw [h3]

/-- Against an exhausted branch, a pattern matches exactly when all its
remaining segments are `**`. -/
theorem _match_segments_nil_right (ps : List Str) :
    _match_segments ps [] = ps.all (fun q => q == dstar) := by
  cases ps with
  | nil => rfl
  | cons p ps' => rfl

/-- A lone `**` pattern segment matches every segment list (fueled form). -/
theorem matchSegmentsFuel_dstar_all :
    ∀ f bs, 1 + List.length bs < f → matchSegmentsFuel f [dstar] bs = true := by
  intro f
  induction f with
  | zero =>
    intro bs h
    exact absurd h (Nat.not_lt_zero _)
  | succ f ih =>
    intro bs h
    cases bs with
    | nil => simp [matchSegmentsFuel, List.all, dstar]
    | cons b bs' =>
      simp only [matchSegmentsFuel, beq_self_eq_true, if_true]
      have h2 : matchSegmentsFuel f [dstar] bs' = true := by
        apply ih
        simp only [List.length_cons] at h
        omega
      rw [h2, Bool.or_true]

/-- A lone `**` pattern segment matches every segment list. -/
theorem _match_segments_dstar_all (bs : List Str) : _match_segments [dstar] bs = true := by
  apply matchSegmentsFuel_dstar_all
  simp only [List.length_cons, List.length_nil]
  omega

/-- Without `**`, each pattern segment consumes exactly one branch
segment: a match forces equal segment counts (so `*` and `?` never
match across a `/` boundary). -/
theorem matchSegmentsFuel_length_eq :
    ∀ f ps bs, dstar ∉ ps → matchSegmentsFuel f ps bs = true → ps.length = bs.length := by
  intro f
  induction f with
  | zero =>
    intro ps bs _ h
    exact absurd h (by simp [matchSegmentsFuel])
  | succ f ih =>
    intro ps bs hnod h
    cases ps with
    | nil =>
      cases bs with
      | nil => rfl
      | cons b bs' => exact absurd h (by simp [matchSegmentsFuel])
    | cons p ps' =>
      cases bs with
      | nil =>
        exfalso
        simp only [matchSegmentsFuel, List.all_cons, Bool.and_eq_true, beq_iff_eq] at h
        refine hnod ?_
        rw [← h.1]
        exact List.mem_cons_self p ps'
      | cons b bs' =>
        rw [matchSegmentsFuel] at h
        have hd : ¬ (p == dstar) = true := by
          intro hbeq
          exact hnod (beq_iff_eq.mp hbeq ▸ List.mem_cons_self p ps')
        rw [if_neg hd, Bool.and_eq_true] at h
        simp only [List.length_cons]
        exact congrArg Nat.succ
          (ih ps' bs' (fun hm => hnod (List.mem_cons_of_mem p hm)) h.2)

/-- A leading `**` consumes zero or more whole segments: it matches
exactly when the rest of the pattern matches some suffix of the target. -/
theorem _match_segments_dstar_cons (ps : List Str) :
    ∀ bs, _match_segments (dstar :: ps) bs = true ↔
      ∃ n, n ≤ bs.length ∧ _match_segments ps (List.drop n bs) = true := by
  intro bs
  induction bs with
  | nil =>
    rw [_match_segments_nil_right]
    simp only [List.all_cons, beq_self_eq_true, Bool.true_and]
    constructor
    · intro h
      refine ⟨0, Nat.le_refl 0, ?_⟩
      rw [List.drop_zero, _match_segments_nil_right]
      exact h
    · rintro ⟨n, hn, h⟩
      have hn0 : n = 0 := Nat.le_zero.mp (by simpa using hn)
      subst hn0
      rw [List.drop_zero, _match_segments_nil_right] at h
      exact h
  | cons b bs' ih =>
    unfold _match_segments
    simp only [matchSegmentsFuel, beq_self_eq_true, if_true]
    have h1 : matchSegmentsFuel ((dstar :: ps).length + (b :: bs').length) ps (b :: bs')
        = _match_segments ps (b :: bs') := by
      apply matchSegmentsFuel_fuel_eq <;> simp only [List.length_cons] <;> omega
    have h2 : matchSegmentsFuel ((dstar :: ps).length + (b :: bs').length) (dstar :: ps) bs'
        = _match_segments (dstar :: ps) bs' := by
      apply matchSegmentsFuel_fuel_eq <;> simp only [List.length_cons] <;> omega
    rw [h1, h2, Bool.or_eq_true]
    constructor
    · rintro (h | h)
      · exact ⟨0, Nat.zero_le _, by rw [List.drop_zero]; exact h⟩
      · rcases (ih).mp h with ⟨n, hn, hrec⟩
        refine ⟨n + 1, by simp only [List.length_cons]; omega, ?_⟩
        rw [List.drop_succ_cons]
        exact hrec
    · rintro ⟨n, hn, h⟩
      cases n with
      | zero =>
        left
        rw [List.drop_zero] at h
        exact h
      | succ n =>
        right
        rw [List.drop_succ_cons] at h
        refine (ih).mpr ⟨n, ?_, h⟩
        simp only [List.length_cons] at hn
        omega

/-- C4: the shared glob matcher is segment-based — without `**` a match
consumes exactly one target segment per pattern segment (so `*` and `?`
never cross a `/` boundary), a leading `**` consumes zero or more whole
segments, and the spec's concrete examples hold, `**` matching every
branch. -/
theorem glob_matcher_semantics (ps bs : List Str)
    (hnod : dstar ∉ ps) (hmatch : _match_segments ps bs = true) :
    ps.length = bs.length
    ∧ branch_matches "feature/*".toList "feature/foo".toList = true
    ∧ branch_matches "feature/*".toList "feature/foo/bar".toList = false
    ∧ branch_matches "release/**".toList "release/1.0".toList = true
    ∧ branch_matches "release/**".toList "release/1.0/rc1".toList = true
    ∧ (∀ b : Str, branch_matches "**".toList b = true)
    ∧ branch_matches "org/**/main".toList "org/team/main".toList = true
    ∧ branch_matches "org/**/main".toList "org/team/sub/main".toList = true
    ∧ branch_matches "org/**/main".toList "org/main".toList = true
    ∧ (∀ qs cs, _match_segments (dstar :: qs) cs = true ↔
        ∃ n, n ≤ cs.length ∧ _match_segments qs (List.drop n cs) = true) := by
  refine ⟨matchSegmentsFuel_length_eq _ ps bs hnod hmatch, by decide, by decide, by decide,
    by decide, ?_, by decide, by decide, by decide, fun qs cs => _match_segments_dstar_cons qs cs⟩
  intro b
  unfold branch_matches
  have hsplit : splitSlash "**".toList = [dstar] := by decide
  rw [hsplit]
  exact _match_segments_dstar_all (splitSlash b)

/-- C4 witness: `feature/*` against `feature/foo` has matching segment
counts. -/
theorem glob_matcher_semantics_witness :
    (splitSlash "feature/*".toList).length = (splitSlash "feature/foo".toList).length :=
  (glob_matcher_semantics (splitSlash "feature/*".toList) (splitSlash "feature/foo".toList)
    (by decide) (by decide)).1

/-- C5 counterexample: a definition with the non-empty branch filter
`["main"]` is still returned by `evaluate_event` for the empty branch,
although the empty branch matches no pattern of the filter — the Python
guard `if defn.triggers.branches and branch:` skips the filter entirely
when the branch is empty. -/
theorem evaluate_event_empty_branch_counterexample :
    evaluate_event [⟨"deploy".toList, ⟨["push".toList], ["main".toList]⟩, ⟨[], []⟩⟩]
        "push".toList [] none
      = [⟨"deploy".toList, ⟨["push".toList], ["main".toList]⟩, ⟨[], []⟩⟩]
    ∧ branch_matches "main".toList [] = false
    ∧ (["main".toList] : List Str) ≠ [] := by
  refine ⟨by decide, by decide, by decide⟩

/-- C5 (amended): for a definition with a non-empty branch filter and an
event with a non-empty current branch, `evaluate_event` includes the
definition only if the branch matches at least one filter pattern (for
the empty branch the filter is skipped). -/
theorem evaluate_event_branch_filter
    (definitions : List JobDefinition) (d : JobDefinition) (eventType branch : Str)
    (changedFiles : Option (List Str))
    (hmem : d ∈ evaluate_event definitions eventType branch changedFiles)
    (hbr : d.triggers.branches ≠ []) (hb : branch ≠ []) :
    ∃ pat ∈ d.triggers.branches, branch_matches pat branch = true := by
  rcases List.mem_filter.mp hmem with ⟨-, hcond⟩
  simp only [Bool.and_eq_true] at hcond
  have hbranch := hcond.1.2
  rw [if_pos ⟨hbr, hb⟩] at hbranch
  exact List.any_eq_true.mp hbranch

/-- C5 witness: with branch `main`, the returned `deploy` definition's
filter indeed has a matching pattern. -/
theorem evaluate_event_branch_filter_witness :
    ∃ pat ∈ (⟨"deploy".toList, ⟨["push".toList], ["main".toList]⟩, ⟨[], []⟩⟩
        : JobDefinition).triggers.branches,
      branch_matches pat "main".toList = true :=
  evaluate_event_branch_filter
    [⟨"deploy".toList, ⟨["push".toList], ["main".toList]⟩, ⟨[], []⟩⟩]
    ⟨"deploy".toList, ⟨["push".toList], ["main".toList]⟩, ⟨[], []⟩⟩
    "push".toList "main".toList none (by decide) (by decide) (by decide)

/-!
Embedding of `get_secrets_to_mask` from `src/runnerlib/src/config.py`.

The filesystem access of the `./job/`-file branch (`os.path.exists` plus
reading the file) is modelled by a lookup function `fileLines`:
`fileLines sl = some lines` when the file exists with those lines (read
errors, which the source swallows, are not modelled).
-/

/-- Python `str.strip()` (whitespace trimmed from both ends). -/
def pyStrip (s : Str) : Str :=
  ((s.dropWhile Char.isWhitespace).reverse.dropWhile Char.isWhitespace).reverse

/-- The runner configuration, restricted to the field `get_secrets_to_mask`
reads (`secrets_list`; `None` models the unset descriptor field). -/
structure RunnerConfig where
  secrets_list : Option Str

/-- One step of the default-mode loop over the environment: register a
value whose key is not `REACTORCIDE_*`, which is non-empty, and which was
not collected yet. -/
def envSecretStep (acc : List Str) (kv : Str × Str) : List Str :=
  if ¬ isPrefixB "REACTORCIDE_".toList kv.1 = true ∧ kv.2 ≠ [] ∧ kv.2 ∉ acc then
    acc ++ [kv.2]
  else acc

/-- One step of the secrets-file loop: keep a stripped line that is
non-blank and no `#` comment. -/
def secretsFileStep (acc : List Str) (line : Str) : List Str :=
  if pyStrip line ≠ [] ∧ ¬ isPrefixB ['#'] (pyStrip line) = true then
    acc ++ [pyStrip line]
  else acc

/-- The explicit-`secrets_list` branch of `get_secrets_to_mask`: a
`./job/`-path whose file exists is read line by line, anything else is
split on commas. -/
def secretsFromList (sl : Str) (fileLines : Str → Option (List Str)) : List Str :=
  if sl ≠ [] ∧ isPrefixB "./job/".toList sl = true ∧ (fileLines sl).isSome then
    match fileLines sl with
    | some lines => lines.foldl secretsFileStep []
    | none => []
  else
    ((splitOnChar ',' sl).map pyStrip).filter (fun s => s ≠ [])

/-- Embedding of `get_secrets_to_mask`. -/
def get_secrets_to_mask (config : RunnerConfig) (env_vars : List (Str × Str))
    (fileLines : Str → Option (List Str)) : List Str :=
  match config.secrets_list with
  | some sl => secretsFromList sl fileLines
  | none => env_vars.foldl envSecretStep []

/-- Membership in the default-mode fold: exactly the non-empty values of
non-`REACTORCIDE_*` entries (plus whatever the accumulator held). -/
theorem envSecretStep_foldl_mem :
    ∀ (l : List (Str × Str)) (acc : List Str) (x : Str),
      x ∈ l.foldl envSecretStep acc ↔
        x ∈ acc ∨ ∃ k, (k, x) ∈ l ∧ ¬ isPrefixB "REACTORCIDE_".toList k = true ∧ x ≠ [] := by
  intro l
  induction l with
  | nil =>
    intro acc x
    simp
  | cons kv l ih =>
    intro acc x
    obtain ⟨k0, v0⟩ := kv
    rw [List.foldl_cons, ih]
    unfold envSecretStep
    by_cases hg : ¬ isPrefixB "REACTORCIDE_".toList k0 = true ∧ v0 ≠ [] ∧ v0 ∉ acc
    · rw [if_pos hg]
      constructor
      · rintro (hmem | ⟨k, hk, hsw, hx⟩)
        · rcases List.mem_append.mp hmem with hacc | hv
          · exact Or.inl hacc
          · rcases List.mem_singleton.mp hv with rfl
            exact Or.inr ⟨k0, List.mem_cons_self _ _, hg.1, hg.2.1⟩
        · exact Or.inr ⟨k, List.mem_cons_of_mem _ hk, hsw, hx⟩
      · rintro (hacc | ⟨k, hk, hsw, hx⟩)
        · exact Or.inl (List.mem_append_left _ hacc)
        · rcases List.mem_cons.mp hk with heq | hl
          · simp only [Prod.mk.injEq] at heq
            obtain ⟨rfl, rfl⟩ := heq
            exact Or.inl (List.mem_append_right _ (List.mem_singleton.mpr rfl))
          · exact Or.inr ⟨k, hl, hsw, hx⟩
    · rw [if_neg hg]
      constructor
      · rintro (hacc | ⟨k, hk, hsw, hx⟩)
        · exact Or.inl hacc
        · exact Or.inr ⟨k, List.mem_cons_of_mem _ hk, hsw, hx⟩
      · rintro (hacc | ⟨k, hk, hsw, hx⟩)
        · exact Or.inl hacc
        · rcases List.mem_cons.mp hk with heq | hl
          · simp only [Prod.mk.injEq] at heq
            obtain ⟨hk0, hx0⟩ := heq
            by_cases hv : x ∈ acc
            · exact Or.inl hv
            · exact absurd ⟨hk0 ▸ hsw, hx0 ▸ hx, hx0 ▸ hv⟩ hg
          · exact Or.inr ⟨k, hl, hsw, hx⟩

/-- The default-mode fold never collects duplicates. -/
theorem envSecretStep_foldl_nodup :
    ∀ (l : List (Str × Str)) (acc : List Str), acc.Nodup → (l.foldl envSecretStep acc).Nodup := by
  intro l
  induction l with
  | nil =>
    intro acc h
    exact h
  | cons kv l ih =>
    intro acc h
    rw [List.foldl_cons]
    apply ih
    unfold envSecretStep
    by_cases hg : ¬ isPrefixB "REACTORCIDE_".toList kv.1 = true ∧ kv.2 ≠ [] ∧ kv.2 ∉ acc
    · rw [if_pos hg, List.nodup_append]
      refine ⟨h, List.nodup_singleton _, ?_⟩
      intro a ha hm
      exact hg.2.2 (List.mem_singleton.mp hm ▸ ha)
    · rw [if_neg hg]
      exact h

/-- Every element the secrets-file fold collects is a stripped line of the
file (or came from the accumulator). -/
theorem secretsFileStep_foldl_mem :
    ∀ (lines acc : List Str) (x : Str),
      x ∈ lines.foldl secretsFileStep acc → x ∈ acc ∨ ∃ line ∈ lines, x = pyStrip line := by
  intro lines
  induction lines with
  | nil =>
    intro acc x h
    exact Or.inl h
  | cons line lines ih =>
    intro acc x h
    rw [List.foldl_cons] at h
    rcases ih _ x h with hacc | ⟨l', hl', rfl⟩
    · unfold secretsFileStep at hacc
      by_cases hg : pyStrip line ≠ [] ∧ ¬ isPrefixB ['#'] (pyStrip line) = true
      · rw [if_pos hg] at hacc
        rcases List.mem_append.mp hacc with h1 | h2
        · exact Or.inl h1
        · exact Or.inr ⟨line, List.mem_cons_self _ _, List.mem_singleton.mp h2⟩
      · rw [if_neg hg] at hacc
        exact Or.inl hacc
    · exact Or.inr ⟨l', List.mem_cons_of_mem _ hl', rfl⟩

/-- C2: `get_secrets_to_mask` has exactly two modes.  With `secrets_list`
unset the result is exactly the non-empty values of non-`REACTORCIDE_*`
environment entries, deduplicated.  With `secrets_list` provided the
result ignores the environment entirely; the empty string yields the
empty list (no default masking), and every returned value comes from the
provided list (a stripped comma piece, or a stripped line of the
referenced `./job/` file). -/
theorem get_secrets_to_mask_modes (env_vars : List (Str × Str))
    (fileLines : Str → Option (List Str)) :
    (∀ x, x ∈ get_secrets_to_mask ⟨none⟩ env_vars fileLines ↔
      ∃ k, (k, x) ∈ env_vars ∧ ¬ isPrefixB "REACTORCIDE_".toList k = true ∧ x ≠ [])
    ∧ (get_secrets_to_mask ⟨none⟩ env_vars fileLines).Nodup
    ∧ (∀ sl, get_secrets_to_mask ⟨some sl⟩ env_vars fileLines
        = get_secrets_to_mask ⟨some sl⟩ [] fileLines)
    ∧ get_secrets_to_mask ⟨some []⟩ env_vars fileLines = []
    ∧ (∀ sl x, x ∈ get_secrets_to_mask ⟨some sl⟩ env_vars fileLines →
        (∃ piece ∈ splitOnChar ',' sl, x = pyStrip piece) ∨
        ∃ lines, fileLines sl = some lines ∧ ∃ line ∈ lines, x = pyStrip line) := by
  refine ⟨?_, ?_, fun sl => rfl, ?_, ?_⟩
  · intro x
    have h := envSecretStep_foldl_mem env_vars [] x
    simpa using h
  · exact envSecretStep_foldl_nodup env_vars [] List.nodup_nil
  · show secretsFromList [] fileLines = []
    unfold secretsFromList
    rw [if_neg (fun h => h.1 rfl)]
    decide
  · intro sl x hx
    replace hx : x ∈ secretsFromList sl fileLines := hx
    unfold secretsFromList at hx
    by_cases hcond : sl ≠ [] ∧ isPrefixB "./job/".toList sl = true ∧ (fileLines sl).isSome
    · rw [if_pos hcond] at hx
      obtain ⟨lines, hl⟩ := Option.isSome_iff_exists.mp hcond.2.2
      rw [hl] at hx
      rcases secretsFileStep_foldl_mem lines [] x hx with hempty | hline
      · exact absurd hempty (List.not_mem_nil x)
      · exact Or.inr ⟨lines, hl, hline⟩
    · rw [if_neg hcond] at hx
      obtain ⟨hmem, -⟩ := List.mem_filter.mp hx
      obtain ⟨piece, hpiece, heq⟩ := List.mem_map.mp hmem
      exact Or.inl ⟨piece, hpiece, heq.symm⟩

/-!
Embedding of `src/runnerlib/src/secrets_local.py`: the decrypted store
is the nested map `{path: {key: value}}`, modelled as an association
list; `secret_delete` validates its arguments (raising `ValueError`,
modelled as `Except.error`), deletes the key if present, and removes
the path node when its key map becomes empty.  The password/encryption
layer (`load_all`/`save_all`) is the identity on the decrypted map and
is not modelled.
-/

/-- Characters admitted by `PATH_PATTERN = ^[a-zA-Z0-9/_-]+$`. -/
def validPathChar (c : Char) : Bool :=
  c.isAlphanum || c = '/' || c = '_' || c = '-'

/-- Characters admitted by `KEY_PATTERN = ^[a-zA-Z0-9_-]+$` (no slash). -/
def validKeyChar (c : Char) : Bool :=
  c.isAlphanum || c = '_' || c = '-'

/-- Embedding of `validate_path` as a predicate (the source raises on
failure). -/
def validate_path (p : Str) : Bool := decide (p ≠ []) && p.all validPathChar

/-- Embedding of `validate_key` as a predicate. -/
def validate_key (k : Str) : Bool := decide (k ≠ []) && k.all validKeyChar

/-- The decrypted secret store: `path → (key → value)`. -/
abbrev SecretStore := List (Str × List (Str × Str))

/-- Deletion from a Python dict (`del d[k]`), on the association-list
model: remove the key's binding. -/
def dictErase {β : Type} (k : Str) (m : List (Str × β)) : List (Str × β) :=
  m.filter (fun kv => decide (kv.1 ≠ k))

/-- In-place update of an existing Python dict entry (`d[k] = v`). -/
def dictSetExisting {β : Type} (k : Str) (v : β) (m : List (Str × β)) : List (Str × β) :=
  m.map (fun kv => if kv.1 = k then (kv.1, v) else kv)

/-- Embedding of `secret_delete`: `(returned bool, store afterwards)`,
or a validation error. -/
def secret_delete (path key : Str) (store : SecretStore) :
    Except Str (Bool × SecretStore) :=
  if validate_path path = false then Except.error "invalid path".toList
  else if validate_key key = false then Except.error "invalid key".toList
  else
    match List.lookup path store with
    | none => Except.ok (false, store)
    | some m =>
      match List.lookup key m with
      | none => Except.ok (false, store)
      | some _ =>
        let m' := dictErase key m
        Except.ok (true, if m' = [] then dictErase path store else dictSetExisting path m' store)

/-- The keys of `secret_list_paths` (the store's top-level keys). -/
def secret_list_paths (store : SecretStore) : List Str := store.map Prod.fst

/-- C8: for valid path and key, `secret_delete` returns ok; the flag is
true exactly when the key existed under the path; a false flag leaves
the store untouched; the no-empty-path-node invariant is preserved; and
deleting the last key under a path removes the path from
`secret_list_paths`. -/
theorem secret_delete_spec (path key : Str) (store : SecretStore)
    (hp : validate_path path = true) (hk : validate_key key = true) :
    ∃ b store', secret_delete path key store = Except.ok (b, store')
      ∧ (b = true ↔ ∃ m, List.lookup path store = some m ∧ (List.lookup key m).isSome = true)
      ∧ (b = false → store' = store)
      ∧ ((∀ pm ∈ store, pm.2 ≠ []) → ∀ pm ∈ store', pm.2 ≠ [])
      ∧ (∀ m, List.lookup path store = some m → (List.lookup key m).isSome = true →
          dictErase key m = [] → path ∉ secret_list_paths store') := by
  have hp' : ¬ validate_path path = false := by simp [hp]
  have hk' : ¬ validate_key key = false := by simp [hk]
  unfold secret_delete
  rw [if_neg hp', if_neg hk']
  cases hlp : List.lookup path store with
  | none =>
    dsimp only
    refine ⟨false, store, rfl, ?_, fun _ => rfl, fun h => h, ?_⟩
    · exact ⟨fun h => absurd h Bool.false_ne_true,
        fun ⟨m, hm, _⟩ => Option.noConfusion hm⟩
    · intro m hm
      exact Option.noConfusion hm
  | some m =>
    dsimp only
    cases hlk : List.lookup key m with
    | none =>
      dsimp only
      refine ⟨false, store, rfl, ?_, fun _ => rfl, fun h => h, ?_⟩
      · refine ⟨fun h => absurd h Bool.false_ne_true, ?_⟩
        rintro ⟨m₂, hm₂, hsome⟩
        obtain rfl : m = m₂ := Option.some_inj.mp hm₂
        rw [hlk] at hsome
        exact Bool.noConfusion hsome
      · intro m₂ hm₂ hsome
        obtain rfl : m = m₂ := Option.some_inj.mp hm₂
        rw [hlk] at hsome
        exact Bool.noConfusion hsome
    | some v =>
      dsimp only
      refine ⟨true, _, rfl, ?_, ?_, ?_, ?_⟩
      · exact ⟨fun _ => ⟨m, rfl, by rw [hlk]; rfl⟩, fun _ => rfl⟩
      · intro h
        exact Bool.noConfusion h
      · intro hinv pm hpm
        by_cases hempty : dictErase key m = []
        · rw [if_pos hempty] at hpm
          exact hinv pm (List.mem_filter.mp hpm).1
        · rw [if_neg hempty] at hpm
          obtain ⟨q, hq, heq⟩ := List.mem_map.mp hpm
          by_cases hqp : q.1 = path
          · rw [if_pos hqp] at heq
            rw [← heq]
            exact hempty
          · rw [if_neg hqp] at heq
            rw [← heq]
            exact hinv q hq
      · intro m₂ hm₂ hsome hempty
        obtain rfl : m = m₂ := Option.some_inj.mp hm₂
        rw [if_pos hempty]
        intro hmem
        obtain ⟨q, hq, hfst⟩ := List.mem_map.mp hmem
        have hne : decide (q.1 ≠ path) = true := (List.mem_filter.mp hq).2
        exact (of_decide_eq_true hne) hfst

/-- C8 witness: deleting the only key `token` under path `app` succeeds,
reports true, and leaves a store without the path `app`. -/
theorem secret_delete_spec_witness :
    ∃ b store', secret_delete "app".toList "token".toList
        [("app".toList, [("token".toList, "v".toList)])] = Except.ok (b, store')
      ∧ (b = true ↔ ∃ m, List.lookup "app".toList
            [("app".toList, [("token".toList, "v".toList)])] = some m
          ∧ (List.lookup "token".toList m).isSome = true)
      ∧ (b = false → store' = [("app".toList, [("token".toList, "v".toList)])])
      ∧ ((∀ pm ∈ [("app".toList, [("token".toList, "v".toList)])], pm.2 ≠ []) →
          ∀ pm ∈ store', pm.2 ≠ [])
      ∧ (∀ m, List.lookup "app".toList
            [("app".toList, [("token".toList, "v".toList)])] = some m →
          (List.lookup "token".toList m).isSome = true →
          dictErase "token".toList m = [] → "app".toList ∉ secret_list_paths store') :=
  secret_delete_spec "app".toList "token".toList
    [("app".toList, [("token".toList, "v".toList)])] (by decide) (by decide)

/-!
Embedding of `src/runnerlib/src/plugins.py` (`PluginManager`).

`register_plugin` stores the plugin under its name in the `plugins`
dict and appends it to the list of every phase it supports, then sorts
each phase list by priority (Python's stable `list.sort`).
`execute_phase` iterates the enabled plugins of the phase list in
order; the model returns that invocation sequence (the per-plugin
`execute`/hook calls and exception flow are not needed by the claims).
A plugin instance is identified by `instanceId` (distinct Python
objects may share a name).
-/

/-- The lifecycle phases (`PluginPhase`). -/
inductive PluginPhase where
  | pre_validation
  | post_validation
  | pre_source_prep
  | post_source_prep
  | pre_container
  | post_container
  | on_error
  | cleanup
deriving DecidableEq

/-- A plugin as the manager sees it (`name`, `priority`, `enabled`,
`supported_phases()`), plus an instance identity. -/
structure Plugin where
  name : Str
  priority : Int
  enabled : Bool
  supportedPhases : List PluginPhase
  instanceId : Nat
deriving DecidableEq

/-- The manager's state: the by-name dict `self.plugins` and the
per-phase dispatch lists `self.phase_plugins`. -/
structure PluginManager where
  plugins : List (Str × Plugin)
  phase_plugins : PluginPhase → List Plugin

/-- A fresh manager. -/
def emptyManager : PluginManager := ⟨[], fun _ => []⟩

/-- Python dict assignment `d[k] = v`: replace in place, else append. -/
def dictSet (k : Str) (v : Plugin) : List (Str × Plugin) → List (Str × Plugin)
  | [] => [(k, v)]
  | kv :: rest => if kv.1 = k then (k, v) :: rest else kv :: dictSet k v rest

/-- Insert after all entries of smaller-or-equal priority (one step of a
stable ascending sort). -/
def insertByPriority (p : Plugin) : List Plugin → List Plugin
  | [] => [p]
  | q :: rest =>
    if q.priority ≤ p.priority then q :: insertByPriority p rest else p :: q :: rest

/-- Stable sort by priority (`list.sort(key=lambda p: p.priority)`). -/
def sortByPriority (l : List Plugin) : List Plugin :=
  l.foldl (fun acc p => insertByPriority p acc) []

/-- Embedding of `register_plugin`: the by-name dict entry is replaced,
but the phase lists only ever get appended to (and re-sorted). -/
def register_plugin (mgr : PluginManager) (p : Plugin) : PluginManager :=
  { plugins := dictSet p.name p mgr.plugins,
    phase_plugins := fun ph =>
      sortByPriority
        (if ph ∈ p.supportedPhases then mgr.phase_plugins ph ++ [p]
         else mgr.phase_plugins ph) }

/-- Embedding of `execute_phase`: the sequence of plugins whose hooks are
invoked for the phase, in dispatch order. -/
def execute_phase (mgr : PluginManager) (ph : PluginPhase) : List Plugin :=
  (mgr.phase_plugins ph).filter (fun p => p.enabled)

/-- C7: registering a second plugin named `duplicate` replaces the
by-name dict entry, yet the `pre_container` dispatch list keeps both
instances and `execute_phase` invokes both — the earlier registration
included. -/
theorem register_plugin_duplicate_appends :
    ((register_plugin (register_plugin emptyManager
          ⟨"duplicate".toList, 100, true, [PluginPhase.pre_container], 1⟩)
          ⟨"duplicate".toList, 100, true, [PluginPhase.pre_container], 2⟩).phase_plugins
        PluginPhase.pre_container).map Plugin.name
      = ["duplicate".toList, "duplicate".toList]
    ∧ execute_phase (register_plugin (register_plugin emptyManager
          ⟨"duplicate".toList, 100, true, [PluginPhase.pre_container], 1⟩)
          ⟨"duplicate".toList, 100, true, [PluginPhase.pre_container], 2⟩)
        PluginPhase.pre_container
      = [⟨"duplicate".toList, 100, true, [PluginPhase.pre_container], 1⟩,
         ⟨"duplicate".toList, 100, true, [PluginPhase.pre_container], 2⟩]
    ∧ List.lookup "duplicate".toList (register_plugin (register_plugin emptyManager
          ⟨"duplicate".toList, 100, true, [PluginPhase.pre_container], 1⟩)
          ⟨"duplicate".toList, 100, true, [PluginPhase.pre_container], 2⟩).plugins
      = some ⟨"duplicate".toList, 100, true, [PluginPhase.pre_container], 2⟩ := by
  refine ⟨by decide, by decide, by decide⟩

/-!
Embedding of `_prepare_git_source` from `src/runnerlib/src/source_prep.py`,
over an abstract git world: a remote exposes a set of refs
(`remoteRefs`), of which only those reachable from the default branch
(`defaultReachable`) are materialized by a plain `Repo.clone_from`.
`repo.git.checkout ref` succeeds exactly when the ref is reachable in
the clone; on any exception the source function logs and re-raises —
it contains no fetch.
-/

/-- An abstract git remote. -/
structure GitWorld where
  remoteRefs : List Str
  defaultReachable : List Str

/-- Embedding of the clone-and-checkout behaviour of
`_prepare_git_source` (success or the propagated checkout error). -/
def _prepare_git_source (w : GitWorld) (source_ref : Option Str) : Except Str Unit :=
  match source_ref with
  | none => Except.ok ()
  | some r =>
    if r ∈ w.defaultReachable then Except.ok ()
    else Except.error "checkout failed".toList

/-- Modelled from the spec: the required fetch-fallback of the source
preparer — "If the requested ref is not reachable after clone …,
perform a focused `fetch origin <ref>:<ref>` and re-`checkout`" — which
makes preparation succeed whenever the ref exists in the remote.  The
function `_checkout_with_fetch_fallback` that the tests import does not
exist in `source_prep.py`. -/
def prepare_git_source_with_fallback (w : GitWorld) (source_ref : Option Str) :
    Except Str Unit :=
  match source_ref with
  | none => Except.ok ()
  | some r =>
    if r ∈ w.defaultReachable then Except.ok ()
    else if r ∈ w.remoteRefs then Except.ok ()
    else Except.error "checkout failed".toList

/-- C3: for a PR commit SHA that exists in the remote but is not on the
default branch, the code's `_prepare_git_source` fails on the first
checkout error, while the spec's fetch-fallback behaviour succeeds. -/
theorem prepare_git_source_no_fetch_fallback :
    _prepare_git_source ⟨["main".toList, "abc123".toList], ["main".toList]⟩
        (some "abc123".toList)
      = Except.error "checkout failed".toList
    ∧ "abc123".toList
        ∈ (⟨["main".toList, "abc123".toList], ["main".toList]⟩ : GitWorld).remoteRefs
    ∧ prepare_git_source_with_fallback ⟨["main".toList, "abc123".toList], ["main".toList]⟩
        (some "abc123".toList)
      = Except.ok () := by
  refine ⟨rfl, by decide, rfl⟩

/-!
Embedding of `WorkflowContext.flush_triggers` from
`src/runnerlib/src/workflow.py`.  The context's state is its in-memory
queue `self.triggers` and the triggers file (`none` when absent; a
parse failure also yields an empty existing-jobs array, not modelled
separately).  The source function returns on an empty queue; otherwise
it reads the existing `jobs` array, appends the queued triggers and
rewrites the file.  It never clears the queue and contains no HTTP
call.  `to_dict` (optional fields elided) is injective on the modelled
fields, so the file stores `JobTrigger`s directly.
-/

/-- A queued trigger (the fields that are always serialized; the
optional source/container overrides are omitted). -/
structure JobTrigger where
  job_name : Str
  condition : Str
  depends_on : List Str
  env : List (Str × Str)
deriving DecidableEq

/-- The workflow context state that `flush_triggers` touches. -/
structure WorkflowState where
  triggers : List JobTrigger
  triggersFile : Option (List JobTrigger)
deriving DecidableEq

/-- Embedding of `flush_triggers`. -/
def flush_triggers (s : WorkflowState) : WorkflowState :=
  if s.triggers = [] then s
  else { triggers := s.triggers,
         triggersFile := some (s.triggersFile.getD [] ++ s.triggers) }

/-- C6: with one queued trigger, `flush_triggers` writes the triggers
file (merging) and the file exists afterwards; the function inspects no
API credentials and performs no POST, so this holds in every
environment — including one with coordinator URL, token and job id set. -/
theorem flush_triggers_always_writes_file :
    flush_triggers ⟨[⟨"test".toList, "all_success".toList, [], []⟩], none⟩
      = ⟨[⟨"test".toList, "all_success".toList, [], []⟩],
         some [⟨"test".toList, "all_success".toList, [], []⟩]⟩ := by
  decide

/-- C10: `flush_triggers` leaves the queue in place and merges into the
existing file, so flushing twice duplicates every queued trigger in the
resulting jobs array. -/
theorem flush_triggers_not_idempotent (s : WorkflowState) (h : s.triggers ≠ []) :
    (flush_triggers s).triggers = s.triggers
    ∧ (flush_triggers (flush_triggers s)).triggersFile
        = some (s.triggersFile.getD [] ++ s.triggers ++ s.triggers)
    ∧ ∀ t, List.count t ((flush_triggers (flush_triggers s)).triggersFile.getD [])
        = List.count t (s.triggersFile.getD []) + 2 * List.count t s.triggers := by
  have h1 : flush_triggers s
      = ⟨s.triggers, some (s.triggersFile.getD [] ++ s.triggers)⟩ := by
    unfold flush_triggers
    rw [if_neg h]
  have h2 : flush_triggers (flush_triggers s)
      = ⟨s.triggers, some (s.triggersFile.getD [] ++ s.triggers ++ s.triggers)⟩ := by
    rw [h1]
    unfold flush_triggers
    rw [if_neg h]
    rfl
  refine ⟨by rw [h1], by rw [h2], ?_⟩
  intro t
  rw [h2]
  show List.count t (s.triggersFile.getD [] ++ s.triggers ++ s.triggers)
      = List.count t (s.triggersFile.getD []) + 2 * List.count t s.triggers
  rw [List.count_append, List.count_append]
  omega

/-- C10 witness: flushing a single `deploy` trigger twice over an absent
file yields a jobs array holding it twice. -/
theorem flush_triggers_not_idempotent_witness :
    (flush_triggers ⟨[⟨"deploy".toList, "all_success".toList, [], []⟩], none⟩).triggers
      = (⟨[⟨"deploy".toList, "all_success".toList, [], []⟩], none⟩ : WorkflowState).triggers
    ∧ (flush_triggers (flush_triggers
          ⟨[⟨"deploy".toList, "all_success".toList, [], []⟩], none⟩)).triggersFile
      = some ((⟨[⟨"deploy".toList, "all_success".toList, [], []⟩], none⟩
            : WorkflowState).triggersFile.getD []
          ++ (⟨[⟨"deploy".toList, "all_success".toList, [], []⟩], none⟩
            : WorkflowState).triggers
          ++ (⟨[⟨"deploy".toList, "all_success".toList, [], []⟩], none⟩
            : WorkflowState).triggers)
    ∧ ∀ t, List.count t ((flush_triggers (flush_triggers
          ⟨[⟨"deploy".toList, "all_success".toList, [], []⟩], none⟩)).triggersFile.getD [])
        = List.count t ((⟨[⟨"deploy".toList, "all_success".toList, [], []⟩], none⟩
              : WorkflowState).triggersFile.getD [])
          + 2 * List.count t (⟨[⟨"deploy".toList, "all_success".toList, [], []⟩], none⟩
              : WorkflowState).triggers :=
  flush_triggers_not_idempotent
    ⟨[⟨"deploy".toList, "all_success".toList, [], []⟩], none⟩ (by decide)
